import Mathlib

/-!
Verification of the mining-sim blockchain simulator.

This file gives a shallow embedding, in Lean 4, of the core of the
mining-sim Rust crate: the append-only blockchain store
(src/src/blockchain.rs), the tie-breaker (src/src/tie_breaker.rs), the
Selfish miner (src/mining-sim/src/miner/selfish.rs, whose decision logic
coincides with src/src/miner/selfish.rs), the N-Deficit and
N-Deficit-Eager decision functions (src/src/miner/ndeficit.rs and
src/mining-sim/src/miner/ndeficiteager.rs), the power-distribution
validator (src/src/power_dist.rs), the simulation builder and the round
driver (src/src/simulation.rs).

Modelling conventions:
* Rust `usize` values (block ids, miner ids, heights, counts) are `Nat`;
  none of the modelled code paths can overflow a 64-bit counter in any
  run the claims quantify over, so wrap-around is not modelled.
* Rust `HashMap<BlockId, BlockData>` is an association list
  `List (BlockId × BlockData)`; `publish` checks for the key before
  inserting, so keys stay distinct and lookup order is irrelevant.
* `Vec` and `VecDeque` are `List` (front of the deque at the head).
* Fallible operations return `Option`/`Except`; a Rust `panic!`,
  `unwrap`, out-of-bounds index or failed `assert!` is modelled as
  `none` (or a dedicated error), as flagged at each site.
* `f64` mining-power values are modelled as exact rationals plus a NaN
  marker (`F64`); every literal appearing in the claims (0.0, 1.0, 1e-6)
  is treated exactly, and IEEE rounding of sums is not modelled.
* The thread-local RNG used for proposer sampling is abstracted as an
  injected sequence of drawn proposers, one per round (spec section 5
  requires the random source to be injectable).
-/

namespace MiningSim

/-- Rust `MinerId(pub usize)` from src/mining-sim/src/miner.rs. -/
abbrev MinerId := Nat

/-- Rust `BlockId(pub usize)` from src/src/blockchain.rs. -/
abbrev BlockId := Nat

/-- Transaction payload; irrelevant to mining dynamics (spec section 3)
and empty in every scenario the claims mention. -/
abbrev Transaction := Unit

/-- Rust `struct Block` from src/src/blockchain.rs. -/
structure Block where
  id : BlockId
  parent_id : Option BlockId
  miner_id : MinerId
  txns : List Transaction
deriving DecidableEq

/-- Rust `struct BlockData` from src/src/blockchain.rs. -/
structure BlockData where
  block : Block
  height : Nat
  children : List BlockId
deriving DecidableEq

/-- Rust `enum BlockPublishingError` from src/src/blockchain.rs. -/
inductive BlockPublishingError where
  | NoParentGiven (id : BlockId)
  | ParentNotFound (child parent : BlockId)
  | InvalidParent (child parent : BlockId)
  | DuplicateBlockID (id : BlockId)
deriving DecidableEq

/-- Rust `struct Blockchain` from src/src/blockchain.rs.  The `blocks` hash
map is modelled as an association list. -/
structure Blockchain where
  max_height : Nat
  blocks : List (BlockId × BlockData)
  blocks_by_height : List (List BlockId)
deriving DecidableEq

/-- Association-list lookup, modelling `HashMap::get`. -/
def lookupB : List (BlockId × BlockData) → BlockId → Option BlockData
  | [], _ => none
  | e :: es, id => if e.1 = id then some e.2 else lookupB es id

/-- Rust `Blockchain::get` from src/src/blockchain.rs. -/
def Blockchain.lookup (c : Blockchain) (id : BlockId) : Option BlockData :=
  lookupB c.blocks id

/-- Rust `Blockchain::contains` from src/src/blockchain.rs. -/
def Blockchain.contains (c : Blockchain) (id : BlockId) : Bool :=
  (c.lookup id).isSome

/-- The genesis block: id 0, no parent, genesis miner 0. -/
def genesisBlock : Block := ⟨0, none, 0, []⟩

/-- Rust `Blockchain::new` from src/src/blockchain.rs: a chain holding only
the genesis block at height 0. -/
def Blockchain.new : Blockchain :=
  { max_height := 0
    blocks := [(0, ⟨genesisBlock, 0, []⟩)]
    blocks_by_height := [[0]] }

/-- Rust `Blockchain::at_height` from src/src/blockchain.rs. -/
def Blockchain.at_height (c : Blockchain) (height : Nat) : Option (List BlockId) :=
  c.blocks_by_height[height]?

/-- Rust `Blockchain::num_blocks` from src/src/blockchain.rs. -/
def Blockchain.num_blocks (c : Blockchain) : Nat :=
  c.blocks.length

/-- Rust `Blockchain::tip` from src/src/blockchain.rs:
`self.blocks_by_height.last().unwrap()`.  The unwrap cannot fail because
`blocks_by_height` is never empty; the (unreachable) empty case is
modelled as `[]`. -/
def Blockchain.tip (c : Blockchain) : List BlockId :=
  c.blocks_by_height.getLast?.getD []

/-- Rust `Blockchain::get_parent` from src/src/blockchain.rs. -/
def Blockchain.get_parent (c : Blockchain) (id : BlockId) : Option BlockId :=
  (c.lookup id).bind (fun d => d.block.parent_id)

/-- Helper for `publish`: `parent_data.children.push(block.id)` applied
inside the stored map. -/
def addChild (l : List (BlockId × BlockData)) (pid bid : BlockId) :
    List (BlockId × BlockData) :=
  l.map (fun e =>
    if e.1 = pid then (e.1, { e.2 with children := e.2.children ++ [bid] }) else e)

/-- Rust `Blockchain::publish` from src/src/blockchain.rs.

The Rust method takes `&mut self` and returns `Result<(), _>`; here it
returns the error (if any) together with the resulting state, mirroring
the source's control flow: every `return Err(..)` happens before any
mutation, so each error case returns the chain unchanged. -/
def Blockchain.publish (c : Blockchain) (b : Block) :
    Option BlockPublishingError × Blockchain :=
  if c.contains b.id then
    (some (.DuplicateBlockID b.id), c)
  else
    match b.parent_id with
    | none => (some (.NoParentGiven b.id), c)
    | some parent_id =>
      match c.lookup parent_id with
      | none => (some (.ParentNotFound b.id parent_id), c)
      | some parent_data =>
        if b.id ≤ parent_data.block.id then
          (some (.InvalidParent b.id parent_id), c)
        else
          -- parent_data.children.push(block.id)
          let blocks1 := addChild c.blocks parent_id b.id
          let height := parent_data.height + 1
          -- if height > self.max_height { push new level } else { append }
          if c.max_height < height then
            (none,
              { max_height := height
                blocks := (b.id, ⟨b, height, []⟩) :: blocks1
                blocks_by_height := c.blocks_by_height ++ [[b.id]] })
          else
            (none,
              { max_height := c.max_height
                blocks := (b.id, ⟨b, height, []⟩) :: blocks1
                blocks_by_height :=
                  c.blocks_by_height.set height
                    ((c.blocks_by_height[height]?.getD []) ++ [b.id]) })

/-- One step of the `Ancestors` iterator chain from src/src/blockchain.rs,
with explicit fuel.  The iterator yields the current id and moves to its
parent; on chains reachable from `new`, parent ids strictly decrease, so
fuel `id + 1` never runs out (proved below). A missing block (where the
Rust indexing `self.chain.blocks[&block_id]` would panic) stops the walk. -/
def ancestorsGo (c : Blockchain) : Nat → BlockId → List BlockId
  | 0, _ => []
  | fuel + 1, id =>
    id ::
      (match c.lookup id with
        | none => []
        | some d =>
          match d.block.parent_id with
          | none => []
          | some p => ancestorsGo c fuel p)

/-- Rust `Blockchain::ancestors_of` from src/src/blockchain.rs: the ids on the
path from `id` back to genesis, in descending height order; empty if `id`
is not on the chain. -/
def Blockchain.ancestors_of (c : Blockchain) (id : BlockId) : List BlockId :=
  if c.contains id then ancestorsGo c (id + 1) id else []

/-- Rust `enum Action` from src/mining-sim/src/miner.rs. -/
inductive Action where
  | Wait
  | Publish (b : Block)
  | PublishSet (bs : List Block)
deriving DecidableEq

/-- Rust `enum TieBreaker` from src/src/tie_breaker.rs, restricted to the two
deterministic variants; `FavorMinerProb` and `Random` draw from the
thread-local RNG and are used by no strategy the claims mention. -/
inductive TieBreaker where
  | EarliestPublished
  | FavorMiner (id : MinerId)
deriving DecidableEq

/-- Rust `TieBreaker::choose` from src/src/tie_breaker.rs.  `tip[0]` on an
empty tip, and the `blockchain[block_id]` index on an id missing from the
chain, would panic in Rust; both are modelled as `none` / non-matching. -/
def TieBreaker.choose (t : TieBreaker) (c : Blockchain) : Option BlockId :=
  let tip := c.tip
  match t with
  | .EarliestPublished => tip.head?
  | .FavorMiner miner_id =>
    match tip.find? (fun bid =>
        match c.lookup bid with
        | some d => d.block.miner_id == miner_id
        | none => false) with
    | some bid => some bid
    | none => tip.head?

/-! ## Selfish miner (src/mining-sim/src/miner/selfish.rs)

The decision structure is identical to the older revision in
src/src/miner/selfish.rs; the spec (section 9) designates the newtype
revision as authoritative. -/

/-- Rust `struct Selfish`. `hidden_blocks` is a `VecDeque`, front at the head. -/
structure Selfish where
  hidden_blocks : List Block
  id : MinerId
  private_height : Nat
  tie_breaker : TieBreaker
deriving DecidableEq

/-- Rust `Selfish::get_action` from src/mining-sim/src/miner/selfish.rs.
Returns `none` exactly where the Rust code would panic
(`tip` empty, or `chain[p]` / `back().unwrap()` on data the chain is
missing); those cases are unreachable in any simulation run. -/
def Selfish.get_action (s : Selfish) (chain : Blockchain)
    (block_mined : Option BlockId) : Option (Action × Selfish) :=
  -- if self.private_height < chain.max_height() { self.hidden_blocks.clear(); }
  let s := if s.private_height < chain.max_height then
    { s with hidden_blocks := [] } else s
  match block_mined with
  | some block_id =>
    -- choose the parent and update private_height
    let parentUpd : Option (BlockId × Nat) :=
      if s.hidden_blocks.isEmpty then
        match s.tie_breaker.choose chain with
        | none => none
        | some p =>
          match chain.lookup p with
          | none => none
          | some d => some (p, d.height + 1)
      else
        s.hidden_blocks.getLast?.map (fun b => (b.id, s.private_height + 1))
    match parentUpd with
    | none => none
    | some (parent_id, ph) =>
      let s := { s with private_height := ph }
      let block : Block := ⟨block_id, some parent_id, s.id, []⟩
      let lc := chain.tip
      if s.hidden_blocks.isEmpty
          && lc.any (fun bid =>
              match chain.lookup bid with
              | some d => d.block.miner_id == s.id
              | none => false)
          && lc.any (fun bid =>
              match chain.lookup bid with
              | some d => d.block.miner_id != s.id
              | none => false) then
        some (.Publish block, s)
      else
        some (.Wait, { s with hidden_blocks := s.hidden_blocks ++ [block] })
  | none =>
    match s.hidden_blocks with
    | [] => some (.Wait, s)
    | [b1, b2] => some (.PublishSet [b1, b2], { s with hidden_blocks := [] })
    | b :: rest => some (.Publish b, { s with hidden_blocks := rest })

/-! ## N-Deficit family (src/src/miner/ndeficit.rs and
src/mining-sim/src/miner/ndeficiteager.rs)

`struct NDeficit` and `struct NDeficitEager` carry exactly the same
fields, so a single state record serves both `map_state` functions.  The
per-round `update_state` walk feeds these decision functions; the claims
about them constrain the state as it stands when `map_state` runs. -/

/-- Rust `enum StateEntry`: run lengths of consecutive attacker (`A`) or
honest (`H`) blocks since capitulation. -/
inductive StateEntry where
  | A (n : Nat)
  | H (n : Nat)
deriving DecidableEq

/-- The common fields of `struct NDeficit` and `struct NDeficitEager`.
`seen` is a `HashSet`, modelled as a duplicate-free list; `our_blocks` is
a `VecDeque`, front at the head. -/
structure NDeficitState where
  i : Nat
  id : MinerId
  tie_breaker : TieBreaker
  capitulation : BlockId
  state : List StateEntry
  seen : List BlockId
  our_blocks : List BlockId
  honest_blocks : List BlockId
deriving DecidableEq

/-- Rust `HashSet::insert`, preserving the duplicate-free list model. -/
def seenInsert (l : List BlockId) (x : BlockId) : List BlockId :=
  if x ∈ l then l else l ++ [x]

/-- Rust `NDeficit::clear_state` (identical in `NDeficitEager`). -/
def NDeficitState.clear_state (s : NDeficitState) : NDeficitState :=
  { s with state := [], seen := [], our_blocks := [], honest_blocks := [] }

/-- Rust `NDeficit::capitulate` (identical in `NDeficitEager`): re-anchor the
race at `genesis` and clear all bookkeeping. -/
def NDeficitState.capitulate (s : NDeficitState) (genesis : BlockId) : NDeficitState :=
  { s.clear_state with capitulation := genesis }

/-- The block list built by `block_path_to`: chain the hidden block ids
onto `parent`, each block pointing at the previous one. -/
def blockPathList (mid : MinerId) : List BlockId → BlockId → List Block
  | [], _ => []
  | id :: rest, parent => ⟨id, some parent, mid, []⟩ :: blockPathList mid rest id

/-- Rust `NDeficit::block_path_to` (identical in `NDeficitEager`): drains
`our_blocks` into a parent-linked path starting at `parent`. -/
def NDeficitState.block_path_to (s : NDeficitState) (parent : BlockId) :
    List Block × NDeficitState :=
  (blockPathList s.id s.our_blocks parent, { s with our_blocks := [] })

/-- Rust `NDeficit::publish_all` (identical in `NDeficitEager`): publish the
whole hidden path from `capitulation` and capitulate to its last block.
`path.last().unwrap()` panics when there are no hidden blocks; that case
is `none`. -/
def NDeficitState.publish_all (s : NDeficitState) : Option (Action × NDeficitState) :=
  let (path, s1) := s.block_path_to s.capitulation
  match path.getLast? with
  | none => none
  | some lastB => some (.PublishSet path, s1.capitulate lastB.id)

/-- Rust `NDeficitEager::publish_one` from
src/mining-sim/src/miner/ndeficiteager.rs: its body is the same drain of
the whole hidden path as `publish_all` (the partial-publish code is
commented out in the source). -/
def NDeficitState.publish_one (s : NDeficitState) : Option (Action × NDeficitState) :=
  let (path, s1) := s.block_path_to s.capitulation
  match path.getLast? with
  | none => none
  | some lastB => some (.PublishSet path, s1.capitulate lastB.id)

/-- Rust `NDeficit::map_state` from src/src/miner/ndeficit.rs.  Arms appear in
source order (Lean matches top-down like Rust).  `none` models the Rust
panics: the catch-all `panic!("illegal n-deficit state")`, out-of-bounds
indexing into `honest_blocks`/`our_blocks`, and `last().unwrap()` on an
empty path.  The comparison in the `[A(1), H(x), A(2..), ..]` arm is over
`Int` where Rust uses `usize` (whose debug build panics on underflow);
the two agree whenever no subtraction underflows. -/
def NDeficit.map_state (s : NDeficitState) : Option (Action × NDeficitState) :=
  match s.state with
  | [] => some (.Wait, s)
  | [.A 1] => some (.Wait, s)
  | .A (_ + 2) :: _ =>
    if s.our_blocks.length = s.honest_blocks.length + 1 then
      s.publish_all
    else
      some (.Wait, s)
  | [.A 1, .H x] =>
    if x > s.i then
      match s.honest_blocks[x - 1]? with
      | none => none
      | some hb => some (.Wait, s.capitulate hb)
    else
      some (.Wait, s)
  | [.A 1, .H 1, .A 1] => s.publish_all
  | [.A 1, .H x, .A 1] =>
    if x > s.i then
      match s.honest_blocks[x - 1]? with
      | none => none
      | some hb => some (.Wait, s.capitulate hb)
    else
      some (.Wait, s)
  | .A 1 :: .H x :: .A (_ + 2) :: _ =>
    let ours := s.our_blocks.length
    let honest := s.honest_blocks.length
    if ours = honest + 1 then
      s.publish_all
    else if (ours : Int) - 1 = (honest : Int) - (x : Int) + 1 then
      match s.honest_blocks[x - 1]? with
      | none => none
      | some hb =>
        let s1 := { s with our_blocks := s.our_blocks.drop 1 }
        let (path, s2) := s1.block_path_to hb
        match path.getLast? with
        | none => none
        | some lastB => some (.PublishSet path, s2.capitulate lastB.id)
    else
      some (.Wait, s)
  | [.A 1, .H x, .A 1, .H 1] =>
    match s.honest_blocks[x - 1]? with
    | none => none
    | some hb =>
      -- Manually capitulate to B_{1, 1}
      let s1 := { s with
        state := [.A 1, .H 1]
        capitulation := hb
        our_blocks := s.our_blocks.drop 1
        honest_blocks := s.honest_blocks.drop x }
      match s1.our_blocks.head?, s1.honest_blocks.head? with
      | some ob, some hb0 =>
        some (.Wait, { s1 with seen := seenInsert (seenInsert [] ob) hb0 })
      | _, _ => none
  | _ => none

/-- Rust `NDeficitEager::map_state` from
src/mining-sim/src/miner/ndeficiteager.rs.  It differs from
`NDeficit::map_state` in the `[A(2..), ..]` arm (also publishes, via
`publish_one`, whenever `honest > 0`; `unreachable!` otherwise) and in
the `[A(1), H(x), A(2..), ..]` arm (the partial publish also fires when
`ours - 1 == honest - x`). -/
def NDeficitEager.map_state (s : NDeficitState) : Option (Action × NDeficitState) :=
  match s.state with
  | [] => some (.Wait, s)
  | [.A 1] => some (.Wait, s)
  | .A (_ + 2) :: _ =>
    let ours := s.our_blocks.length
    let honest := s.honest_blocks.length
    if ours = honest + 1 then
      s.publish_all
    else if honest > 0 then
      s.publish_one
    else
      none
  | [.A 1, .H x] =>
    if x > s.i then
      match s.honest_blocks[x - 1]? with
      | none => none
      | some hb => some (.Wait, s.capitulate hb)
    else
      some (.Wait, s)
  | [.A 1, .H 1, .A 1] => s.publish_all
  | [.A 1, .H x, .A 1] =>
    if x > s.i then
      match s.honest_blocks[x - 1]? with
      | none => none
      | some hb => some (.Wait, s.capitulate hb)
    else
      some (.Wait, s)
  | .A 1 :: .H x :: .A (_ + 2) :: _ =>
    let ours := s.our_blocks.length
    let honest := s.honest_blocks.length
    if ours = honest + 1 then
      s.publish_all
    else if (ours : Int) - 1 = (honest : Int) - (x : Int) + 1
        ∨ (ours : Int) - 1 = (honest : Int) - (x : Int) then
      match s.honest_blocks[x - 1]? with
      | none => none
      | some hb =>
        let s1 := { s with our_blocks := s.our_blocks.drop 1 }
        let (path, s2) := s1.block_path_to hb
        match path.getLast? with
        | none => none
        | some lastB => some (.PublishSet path, s2.capitulate lastB.id)
    else
      some (.Wait, s)
  | [.A 1, .H x, .A 1, .H 1] =>
    match s.honest_blocks[x - 1]? with
    | none => none
    | some hb =>
      let s1 := { s with
        state := [.A 1, .H 1]
        capitulation := hb
        our_blocks := s.our_blocks.drop 1
        honest_blocks := s.honest_blocks.drop x }
      match s1.our_blocks.head?, s1.honest_blocks.head? with
      | some ob, some hb0 =>
        some (.Wait, { s1 with seen := seenInsert (seenInsert [] ob) hb0 })
      | _, _ => none
  | _ => none

/-! ## Power distribution (src/src/power_dist.rs)

`PowerValue = f64` is modelled as an exact rational with a NaN marker.
All literals the validator uses (0.0, 1.0, 1e-6) are taken exactly; the
IEEE rounding of sums is not modelled.  IEEE comparison semantics for
NaN (every comparison false) are preserved. -/

inductive F64 where
  | nan
  | val (q : ℚ)
deriving DecidableEq

/-- f64 addition: NaN propagates, finite values add exactly. -/
def F64.add : F64 → F64 → F64
  | .nan, _ => .nan
  | _, .nan => .nan
  | .val a, .val b => .val (a + b)

/-- f64 subtraction: NaN propagates. -/
def F64.sub : F64 → F64 → F64
  | .nan, _ => .nan
  | _, .nan => .nan
  | .val a, .val b => .val (a - b)

/-- Rust `f64::abs`. -/
def F64.abs : F64 → F64
  | .nan => .nan
  | .val a => .val |a|

/-- Rust `f64::is_nan`. -/
def F64.isNan : F64 → Bool
  | .nan => true
  | .val _ => false

/-- IEEE `<=`: false whenever either side is NaN. -/
def F64.le : F64 → F64 → Bool
  | .val a, .val b => a ≤ b
  | _, _ => false

/-- IEEE `<`: false whenever either side is NaN. -/
def F64.lt : F64 → F64 → Bool
  | .val a, .val b => a < b
  | _, _ => false

/-- IEEE `>`: false whenever either side is NaN. -/
def F64.gt : F64 → F64 → Bool
  | .val a, .val b => b < a
  | _, _ => false

/-- Rust `PowerValue` from src/src/power_dist.rs. -/
abbrev PowerValue := F64

/-- Rust `enum PowerDistribution` from src/src/power_dist.rs. -/
inductive PowerDistribution where
  | Equal
  | SetMiner (id : MinerId) (power : PowerValue)
  | SetValues (dist : List PowerValue)
deriving DecidableEq

/-- Rust `enum PowerDistributionError` from src/src/power_dist.rs. -/
inductive PowerDistributionError where
  | BadDistributionSum (sum : PowerValue)
  | BadPowerValue (v : PowerValue)
  | SetMinerGenesisMiner
  | SetMinerBadMinerID (id : MinerId)
  | SetMinerSingleMiner
  | WrongNumMiners (got expected : Nat)
  | ZeroMinersGiven
deriving DecidableEq

/-- Rust `PowerDistribution::EPSILON_POWER = 1e-6`. -/
def EPSILON_POWER : F64 := .val (1 / 1000000)

/-- Rust `PowerDistribution::validate` from src/src/power_dist.rs, returning
`some e` for `Err(e)` and `none` for `Ok(())`.

Note the source checks `SetValues` elements with the half-open Rust
range `0.0..1.0` (`!(0.0..1.0).contains(x)`), while the `SetMiner` arm
uses the inclusive range `0.0..=1.0`; both are transcribed exactly. -/
def PowerDistribution.validate (d : PowerDistribution) (num_miners : Nat) :
    Option PowerDistributionError :=
  if num_miners = 0 then
    some .ZeroMinersGiven
  else
    match d with
    | .Equal => none
    | .SetValues dist =>
      if dist.length ≠ num_miners then
        some (.WrongNumMiners dist.length num_miners)
      else
        match dist.find? (fun x =>
            x.isNan || !(F64.le (.val 0) x && F64.lt x (.val 1))) with
        | some v => some (.BadPowerValue v)
        | none =>
          let sum := dist.foldl F64.add (.val 0)
          if F64.gt (F64.abs (F64.sub sum (.val 1))) EPSILON_POWER then
            some (.BadDistributionSum sum)
          else
            none
    | .SetMiner miner_id power =>
      if num_miners = 1 then
        some .SetMinerSingleMiner
      else if miner_id = 0 then
        some .SetMinerGenesisMiner
      else if miner_id > num_miners then
        some (.SetMinerBadMinerID miner_id)
      else if power.isNan || !(F64.le (.val 0) power && F64.le power (.val 1)) then
        some (.BadPowerValue power)
      else
        none

/-! ## Round driver and builder (src/src/simulation.rs)

Rust's `Box<dyn Miner>` trait objects are modelled by a type `M`
together with a dictionary `MinerOps M` of the trait methods (`name` is
omitted: it only feeds result formatting, which is out of scope per spec
section 1). -/

/-- The `Miner` trait methods the driver and builder use. -/
structure MinerOps (M : Type) where
  id : M → MinerId
  set_id : M → MinerId → M
  get_action : M → Blockchain → Option BlockId → Action × M

/-- Rust `enum SimulationError` from src/src/simulation.rs, plus a variant
modelling the driver's `assert_eq!(block.miner_id, miner_id)` panic.
(`WeightedIndexError` cannot arise once the proposer draw is abstracted
as an injected sequence.) -/
inductive SimulationError where
  | BlockPublishingError (e : BlockPublishingError)
  | WrongMinerId (expected got : MinerId)
deriving DecidableEq

/-- The inner loop of `Simulation::run`: publish each block a miner
returned, in order, after the `assert_eq!` check on its `miner_id`. -/
def applyBlocks (miner_id : MinerId) :
    Blockchain → List Block → Except SimulationError Blockchain
  | c, [] => .ok c
  | c, b :: bs =>
    if b.miner_id ≠ miner_id then
      .error (.WrongMinerId miner_id b.miner_id)
    else
      match c.publish b with
      | (some e, _) => .error (.BlockPublishingError e)
      | (none, c1) => applyBlocks miner_id c1 bs

/-- One miner's turn inside a round of `Simulation::run`: call
`get_action` and apply the resulting `Wait`/`Publish`/`PublishSet` to
the chain immediately.  The `blocks_by_miner` record, filled in the same
loop, only feeds the result tables (out of scope per spec section 1) and
is omitted. -/
def pollMiner {M : Type} (ops : MinerOps M) (c : Blockchain) (m : M)
    (block_mined : Option BlockId) : Except SimulationError (Blockchain × M) :=
  let miner_id := ops.id m
  let (a, m1) := ops.get_action m c block_mined
  let blocks_published : List Block :=
    match a with
    | .Wait => []
    | .Publish b => [b]
    | .PublishSet bs => bs
  match applyBlocks miner_id c blocks_published with
  | .error e => .error e
  | .ok c1 => .ok (c1, m1)

/-- One round of `Simulation::run`: poll every miner in registration
order, handing the proposer `Some(BlockId(round))` and everyone else
`None`, threading the chain through so each miner sees all blocks
published earlier in the round. -/
def runRound {M : Type} (ops : MinerOps M) (c : Blockchain) (ms : List M)
    (proposer : MinerId) (round : Nat) :
    Except SimulationError (Blockchain × List M) :=
  match ms with
  | [] => .ok (c, [])
  | m :: rest =>
    let block_mined := if proposer = ops.id m then some round else none
    match pollMiner ops c m block_mined with
    | .error e => .error e
    | .ok (c1, m1) =>
      match runRound ops c1 rest proposer round with
      | .error e => .error e
      | .ok (c2, rest1) => .ok (c2, m1 :: rest1)

/-- The round loop of `Simulation::run`, starting at round `r` and
running `k` further rounds; `prop` is the injected sequence of drawn
proposers. -/
def runRounds {M : Type} (ops : MinerOps M) :
    Nat → Blockchain → List M → (Nat → MinerId) → Nat →
    Except SimulationError (Blockchain × List M)
  | 0, c, ms, _, _ => .ok (c, ms)
  | k + 1, c, ms, prop, r =>
    match runRound ops c ms (prop r) r with
    | .error e => .error e
    | .ok (c1, ms1) => runRounds ops k c1 ms1 prop (r + 1)

/-- Rust `Simulation::run` from src/src/simulation.rs: rounds are numbered
`1..=rounds` (the Rust iterator maps `enumerate()` through `round + 1`),
and round `r`'s block id is `BlockId(r)`. -/
def Simulation.run {M : Type} (ops : MinerOps M) (c : Blockchain) (ms : List M)
    (prop : Nat → MinerId) (rounds : Nat) :
    Except SimulationError (Blockchain × List M) :=
  runRounds ops rounds c ms prop 1

/-- Rust `enum SimulationBuildError` from src/src/simulation.rs.  Note that
`ZeroRounds` and `ZeroRepeats` are declared by the source but never
constructed anywhere in the crate. -/
inductive SimulationBuildError where
  | NoMinersGiven
  | ZeroRounds
  | ZeroRepeats
  | PowerDistributionError (e : PowerDistributionError)
deriving DecidableEq

/-- Rust `NonZeroUsize::new`: `none` exactly on zero. -/
def nonZeroNew (n : Nat) : Option Nat :=
  if n = 0 then none else some n

/-- Rust `struct SimulationBuilder` from src/src/simulation.rs.  The
`repeat_all` and `rounds` fields are `Option<NonZeroUsize>`. -/
structure SimulationBuilder (M : Type) where
  blockchain : Option Blockchain
  power_dists : List PowerDistribution
  repeat_all : Option Nat
  rounds : Option Nat
  miners : List M
  curr_miner_id : MinerId

/-- Rust `SimulationBuilder::new` / `default`: `MinerId::default()` is
`MinerId(1)` (id 0 is reserved for the genesis miner). -/
def SimulationBuilder.new (M : Type) : SimulationBuilder M :=
  { blockchain := none, power_dists := [], repeat_all := none,
    rounds := none, miners := [], curr_miner_id := 1 }

/-- Rust `SimulationBuilder::add_miner`: assign the next id, check the
miner's `id()` reports it (the Rust `assert_eq!` panic is `none`). -/
def SimulationBuilder.add_miner {M : Type} (ops : MinerOps M)
    (b : SimulationBuilder M) (m : M) : Option (SimulationBuilder M) :=
  let m1 := ops.set_id m b.curr_miner_id
  if ops.id m1 = b.curr_miner_id then
    some { b with miners := b.miners ++ [m1],
                  curr_miner_id := b.curr_miner_id + 1 }
  else
    none

/-- Rust `SimulationBuilder::repeat_all`: `self.repeat_all =
NonZeroUsize::new(num)` — passing 0 silently leaves the field unset. -/
def SimulationBuilder.set_repeat_all {M : Type} (b : SimulationBuilder M)
    (num : Nat) : SimulationBuilder M :=
  { b with repeat_all := nonZeroNew num }

/-- Rust `SimulationBuilder::rounds`: `self.rounds = NonZeroUsize::new(rounds)`
— passing 0 silently leaves the field unset. -/
def SimulationBuilder.set_rounds {M : Type} (b : SimulationBuilder M)
    (rounds : Nat) : SimulationBuilder M :=
  { b with rounds := nonZeroNew rounds }

/-- Rust `struct SimulationGroup` from src/src/simulation.rs. -/
structure SimulationGroup (M : Type) where
  blockchain : Option Blockchain
  miners : List M
  power_dists : List PowerDistribution
  repeat_all : Nat
  rounds : Nat

/-- First validation error over the configured distributions, mirroring
the `?`-propagating loop in `build`. -/
def validateAll (dists : List PowerDistribution) (n : Nat) :
    Option PowerDistributionError :=
  dists.findSome? (fun d => d.validate n)

/-- Rust `SimulationBuilder::build` from src/src/simulation.rs: errors on an
empty miner set or an invalid distribution, then defaults `repeat_all`
and `rounds` to 1 whenever unset (`unwrap_or(NonZeroUsize::new(1))`). -/
def SimulationBuilder.build {M : Type} (b : SimulationBuilder M) :
    Except SimulationBuildError (SimulationGroup M) :=
  if b.miners.isEmpty then
    .error .NoMinersGiven
  else
    let power_dists :=
      if b.power_dists.isEmpty then [PowerDistribution.Equal] else b.power_dists
    match validateAll power_dists b.miners.length with
    | some e => .error (.PowerDistributionError e)
    | none =>
      .ok { blockchain := b.blockchain
            miners := b.miners
            power_dists := power_dists
            repeat_all := b.repeat_all.getD 1
            rounds := b.rounds.getD 1 }

/-! ## Concrete miners used as witnesses -/

/-- Rust `struct Noop` from src/src/miner/noop.rs: always `Wait`. -/
structure Noop where
  id : MinerId
deriving DecidableEq

/-- The `Miner` trait implementation of `Noop`. -/
def noopOps : MinerOps Noop :=
  { id := fun m => m.id
    set_id := fun _ id => ⟨id⟩
    get_action := fun m _ _ => (.Wait, m) }

/-! ## Lemmas about the association-list block map -/

theorem lookupB_eq_none (l : List (BlockId × BlockData)) (id : BlockId) :
    lookupB l id = none ↔ id ∉ l.map Prod.fst := by
  induction l with
  | nil => simp [lookupB]
  | cons e es ih =>
    by_cases h : e.1 = id
    · simp [lookupB, h]
    · simp only [lookupB, if_neg h, List.map_cons, List.mem_cons, ih]
      constructor
      · intro hn hor
        rcases hor with hor | hor
        · exact h hor.symm
        · exact hn hor
      · intro hn
        exact fun hm => hn (Or.inr hm)

theorem lookupB_mem {l : List (BlockId × BlockData)} {id : BlockId}
    {d : BlockData} (h : lookupB l id = some d) : (id, d) ∈ l := by
  induction l with
  | nil => simp [lookupB] at h
  | cons e es ih =>
    rw [lookupB] at h
    by_cases he : e.1 = id
    · rw [if_pos he] at h
      have : e = (id, d) := by
        cases e
        simp at he h
        exact Prod.ext he h
      exact this ▸ List.mem_cons_self _ _
    · rw [if_neg he] at h
      exact List.mem_cons_of_mem _ (ih h)

theorem mem_lookupB {l : List (BlockId × BlockData)}
    (hnd : (l.map Prod.fst).Nodup) {id : BlockId} {d : BlockData}
    (h : (id, d) ∈ l) : lookupB l id = some d := by
  induction l with
  | nil => simp at h
  | cons e es ih =>
    rw [List.map_cons, List.nodup_cons] at hnd
    rcases List.mem_cons.mp h with h | h
    · subst h
      simp [lookupB]
    · have hne : e.1 ≠ id := by
        intro hx
        exact hnd.1 (hx ▸ List.mem_map_of_mem Prod.fst h)
      simp [lookupB, hne, ih hnd.2 h]

theorem keys_addChild (l : List (BlockId × BlockData)) (pid bid : BlockId) :
    (addChild l pid bid).map Prod.fst = l.map Prod.fst := by
  induction l with
  | nil => rfl
  | cons e es ih =>
    simp only [addChild, List.map_cons] at *
    by_cases h : e.1 = pid <;> simp [h, ih]

theorem lookupB_addChild (l : List (BlockId × BlockData)) (pid bid id : BlockId) :
    lookupB (addChild l pid bid) id =
      (lookupB l id).map (fun d =>
        if id = pid then { d with children := d.children ++ [bid] } else d) := by
  induction l with
  | nil => simp [addChild, lookupB]
  | cons e es ih =>
    simp only [addChild, List.map_cons]
    by_cases h1 : e.1 = pid
    · rw [if_pos h1]
      by_cases h2 : e.1 = id
      · have hip : id = pid := h2 ▸ h1
        simp [lookupB, h2, hip]
      · simp only [lookupB, if_neg h2]
        exact ih
    · rw [if_neg h1]
      by_cases h2 : e.1 = id
      · have hip : ¬(id = pid) := fun hx => h1 (h2 ▸ hx)
        simp [lookupB, h2, hip]
      · simp only [lookupB, if_neg h2]
        exact ih

/-! ## Unfolding lemmas for `publish` -/

/-- The chain produced by a successful `publish` of `b` whose parent
entry is `(pid, pd)`. -/
def publishedChain (c : Blockchain) (b : Block) (pid : BlockId) (pd : BlockData) :
    Blockchain :=
  if c.max_height < pd.height + 1 then
    { max_height := pd.height + 1
      blocks := (b.id, ⟨b, pd.height + 1, []⟩) :: addChild c.blocks pid b.id
      blocks_by_height := c.blocks_by_height ++ [[b.id]] }
  else
    { max_height := c.max_height
      blocks := (b.id, ⟨b, pd.height + 1, []⟩) :: addChild c.blocks pid b.id
      blocks_by_height :=
        c.blocks_by_height.set (pd.height + 1)
          ((c.blocks_by_height[pd.height + 1]?.getD []) ++ [b.id]) }

theorem publish_dup {c : Blockchain} {b : Block}
    (h : c.contains b.id = true) :
    c.publish b = (some (.DuplicateBlockID b.id), c) := by
  simp [Blockchain.publish, h]

theorem publish_no_parent {c : Blockchain} {b : Block}
    (h : c.contains b.id = false) (hp : b.parent_id = none) :
    c.publish b = (some (.NoParentGiven b.id), c) := by
  simp [Blockchain.publish, h, hp]

theorem publish_parent_not_found {c : Blockchain} {b : Block} {pid : BlockId}
    (h : c.contains b.id = false) (hp : b.parent_id = some pid)
    (hl : c.lookup pid = none) :
    c.publish b = (some (.ParentNotFound b.id pid), c) := by
  simp [Blockchain.publish, h, hp, hl]

theorem publish_invalid_parent {c : Blockchain} {b : Block} {pid : BlockId}
    {pd : BlockData} (h : c.contains b.id = false) (hp : b.parent_id = some pid)
    (hl : c.lookup pid = some pd) (hle : b.id ≤ pd.block.id) :
    c.publish b = (some (.InvalidParent b.id pid), c) := by
  simp [Blockchain.publish, h, hp, hl, hle]

theorem publish_success {c : Blockchain} {b : Block} {pid : BlockId}
    {pd : BlockData} (h : c.contains b.id = false) (hp : b.parent_id = some pid)
    (hl : c.lookup pid = some pd) (hlt : pd.block.id < b.id) :
    c.publish b = (none, publishedChain c b pid pd) := by
  have hle : ¬ b.id ≤ pd.block.id := Nat.not_le.mpr hlt
  by_cases hmax : c.max_height < pd.height + 1
  · simp [Blockchain.publish, publishedChain, h, hp, hl, hle, hmax]
  · simp [Blockchain.publish, publishedChain, h, hp, hl, hle, hmax]

theorem publish_ok_cases {c : Blockchain} {b : Block} {c' : Blockchain}
    (h : c.publish b = (none, c')) :
    ∃ pid pd, c.contains b.id = false ∧ b.parent_id = some pid ∧
      c.lookup pid = some pd ∧ pd.block.id < b.id ∧
      c' = publishedChain c b pid pd := by
  by_cases hc : c.contains b.id
  · rw [publish_dup hc] at h
    exact absurd (congrArg Prod.fst h) (by simp)
  · rw [Bool.not_eq_true] at hc
    cases hp : b.parent_id with
    | none =>
      rw [publish_no_parent hc hp] at h
      exact absurd (congrArg Prod.fst h) (by simp)
    | some pid =>
      cases hl : c.lookup pid with
      | none =>
        rw [publish_parent_not_found hc hp hl] at h
        exact absurd (congrArg Prod.fst h) (by simp)
      | some pd =>
        by_cases hle : b.id ≤ pd.block.id
        · rw [publish_invalid_parent hc hp hl hle] at h
          exact absurd (congrArg Prod.fst h) (by simp)
        · have hlt : pd.block.id < b.id := Nat.not_le.mp hle
          rw [publish_success hc hp hl hlt] at h
          exact ⟨pid, pd, hc, rfl, hl, hlt, (congrArg Prod.snd h).symm⟩

/-- C10's content as a helper: every error branch of `publish` returns
the chain untouched. -/
theorem publish_error_helper (c : Blockchain) (b : Block)
    (h : (c.publish b).1.isSome = true) : (c.publish b).2 = c := by
  by_cases hc : c.contains b.id
  · rw [publish_dup hc]
  · rw [Bool.not_eq_true] at hc
    cases hp : b.parent_id with
    | none => rw [publish_no_parent hc hp]
    | some pid =>
      cases hl : c.lookup pid with
      | none => rw [publish_parent_not_found hc hp hl]
      | some pd =>
        by_cases hle : b.id ≤ pd.block.id
        · rw [publish_invalid_parent hc hp hl hle]
        · rw [publish_success hc hp hl (Nat.not_le.mp hle)] at h ⊢
          simp at h

/-! ## Reachable chains and their invariant -/

/-- Chains obtainable from `Blockchain::new` by successful `publish`
calls — the states the spec's invariants quantify over. -/
inductive Reachable : Blockchain → Prop
  | new : Reachable Blockchain.new
  | publish {c : Blockchain} (b : Block) {c' : Blockchain} :
      Reachable c → c.publish b = (none, c') → Reachable c'

/-- The inductive invariant of reachable chains.  `bbh` abbreviates
`blocks_by_height`. -/
structure Inv (c : Blockchain) : Prop where
  keys : ∀ id d, c.lookup id = some d → d.block.id = id
  nodup : (c.blocks.map Prod.fst).Nodup
  genesis : ∃ ch, c.lookup 0 = some ⟨genesisBlock, 0, ch⟩
  parent : ∀ id d, c.lookup id = some d → id ≠ 0 →
    ∃ p dp, d.block.parent_id = some p ∧ c.lookup p = some dp ∧ p < id ∧
      d.height = dp.height + 1
  root : ∀ id d, c.lookup id = some d → d.block.parent_id = none → id = 0
  bbh_len : c.blocks_by_height.length = c.max_height + 1
  bbh_sound : ∀ (h : Nat) (hs : List BlockId), c.blocks_by_height[h]? = some hs →
    ∀ id ∈ hs, ∃ d, c.lookup id = some d ∧ d.height = h
  bbh_complete : ∀ id d, c.lookup id = some d →
    ∃ hs, c.blocks_by_height[d.height]? = some hs ∧ id ∈ hs
  bbh_ne : ∀ (h : Nat) (hs : List BlockId), c.blocks_by_height[h]? = some hs → hs ≠ []

theorem Inv.height_le {c : Blockchain} (hI : Inv c) {id : BlockId}
    {d : BlockData} (h : c.lookup id = some d) : d.height ≤ c.max_height := by
  obtain ⟨hs, hget, _⟩ := hI.bbh_complete id d h
  have hlt : d.height < c.blocks_by_height.length := by
    by_contra hge
    rw [List.getElem?_eq_none_iff.mpr (Nat.le_of_not_lt hge)] at hget
    exact Option.noConfusion hget
  rw [hI.bbh_len] at hlt
  omega

theorem inv_new : Inv Blockchain.new := by
  have hlook : ∀ id, Blockchain.new.lookup id =
      if 0 = id then some ⟨genesisBlock, 0, []⟩ else none := by
    intro id
    rfl
  refine ⟨?_, ?_, ?_, ?_, ?_, ?_, ?_, ?_, ?_⟩
  · intro id d h
    rw [hlook] at h
    split at h
    · next h0 =>
      cases h
      exact h0
    · exact Option.noConfusion h
  · simp [Blockchain.new]
  · exact ⟨[], by rw [hlook]; simp⟩
  · intro id d h hne
    rw [hlook] at h
    split at h
    · next h0 => exact absurd h0.symm hne
    · exact Option.noConfusion h
  · intro id d h _
    rw [hlook] at h
    split at h
    · next h0 => exact h0.symm
    · exact Option.noConfusion h
  · rfl
  · intro h hs hget id hid
    have hh : h = 0 := by
      cases h with
      | zero => rfl
      | succ n => simp [Blockchain.new] at hget
    subst hh
    simp [Blockchain.new] at hget
    subst hget
    simp at hid
    subst hid
    exact ⟨⟨genesisBlock, 0, []⟩, by rw [hlook]; simp, rfl⟩
  · intro id d h
    rw [hlook] at h
    split at h
    · next h0 =>
      cases h
      exact ⟨[0], by simp [Blockchain.new], by rw [← h0]; exact List.mem_singleton.mpr rfl⟩
    · exact Option.noConfusion h
  · intro h hs hget
    have hh : h = 0 := by
      cases h with
      | zero => rfl
      | succ n => simp [Blockchain.new] at hget
    subst hh
    simp [Blockchain.new] at hget
    subst hget
    simp

theorem lookup_publishedChain (c : Blockchain) (b : Block) (pid : BlockId)
    (pd : BlockData) (id : BlockId) :
    (publishedChain c b pid pd).lookup id =
      if b.id = id then some ⟨b, pd.height + 1, []⟩
      else (c.lookup id).map (fun d =>
        if id = pid then { d with children := d.children ++ [b.id] } else d) := by
  unfold publishedChain Blockchain.lookup
  split <;> simp [lookupB, lookupB_addChild]

theorem keys_publishedChain (c : Blockchain) (b : Block) (pid : BlockId)
    (pd : BlockData) :
    (publishedChain c b pid pd).blocks.map Prod.fst =
      b.id :: c.blocks.map Prod.fst := by
  unfold publishedChain
  split <;> simp [keys_addChild]

theorem inv_publish {c : Blockchain} {b : Block} {c' : Blockchain}
    (hI : Inv c) (h : c.publish b = (none, c')) : Inv c' := by
  obtain ⟨pid, pd, hcont, hpar, hlook, hlt, hc'⟩ := publish_ok_cases h
  subst hc'
  have hkp : pd.block.id = pid := hI.keys pid pd hlook
  have hpidlt : pid < b.id := by rw [← hkp]; exact hlt
  have hbid0 : b.id ≠ 0 := by
    intro hx
    rw [hx] at hpidlt
    exact Nat.not_lt_zero pid hpidlt
  have hnone : c.lookup b.id = none := by
    unfold Blockchain.contains at hcont
    cases hx : c.lookup b.id with
    | none => rfl
    | some d => rw [hx] at hcont; simp at hcont
  have hlk := lookup_publishedChain c b pid pd
  have hlknew : (publishedChain c b pid pd).lookup b.id =
      some ⟨b, pd.height + 1, []⟩ := by rw [hlk]; simp
  have pres : ∀ id d, c.lookup id = some d →
      ∃ d', (publishedChain c b pid pd).lookup id = some d' ∧
        d'.height = d.height ∧ d'.block = d.block := by
    intro id d hd
    have hne : b.id ≠ id := by
      intro hx
      rw [hx] at hnone
      rw [hnone] at hd
      exact Option.noConfusion hd
    rw [hlk id, if_neg hne, hd]
    rw [Option.map_some']
    refine ⟨_, rfl, ?_, ?_⟩ <;> (split <;> rfl)
  -- the five fields not involving blocks_by_height
  have hkeys : ∀ id d, (publishedChain c b pid pd).lookup id = some d →
      d.block.id = id := by
    intro id d hd
    rw [hlk id] at hd
    split at hd
    · next hbi =>
      cases hd
      exact hbi
    · cases hold : c.lookup id with
      | none => rw [hold] at hd; exact Option.noConfusion hd
      | some d0 =>
        rw [hold] at hd
        have hk0 := hI.keys id d0 hold
        rw [Option.map_some'] at hd
        cases hd
        split
        · exact hk0
        · exact hk0
  have hnodup : ((publishedChain c b pid pd).blocks.map Prod.fst).Nodup := by
    rw [keys_publishedChain]
    refine List.nodup_cons.mpr ⟨?_, hI.nodup⟩
    exact (lookupB_eq_none c.blocks b.id).mp hnone
  have hgen : ∃ ch, (publishedChain c b pid pd).lookup 0 =
      some ⟨genesisBlock, 0, ch⟩ := by
    obtain ⟨ch, hg⟩ := hI.genesis
    refine ⟨if 0 = pid then ch ++ [b.id] else ch, ?_⟩
    rw [hlk 0, if_neg hbid0, hg]
    by_cases hp : (0 : BlockId) = pid
    · rw [if_pos hp]
      simp [hp]
    · rw [if_neg hp]
      simp [hp]
  have hparent : ∀ id d, (publishedChain c b pid pd).lookup id = some d →
      id ≠ 0 → ∃ p dp, d.block.parent_id = some p ∧
        (publishedChain c b pid pd).lookup p = some dp ∧ p < id ∧
        d.height = dp.height + 1 := by
    intro id d hd hne
    rw [hlk id] at hd
    split at hd
    · next hbi =>
      cases hd
      obtain ⟨dp', hdp', hh', hb'⟩ := pres pid pd hlook
      exact ⟨pid, dp', hpar, hdp', hbi ▸ hpidlt, by rw [hh']⟩
    · cases hold : c.lookup id with
      | none => rw [hold] at hd; exact Option.noConfusion hd
      | some d0 =>
        rw [hold] at hd
        rw [Option.map_some'] at hd
        obtain ⟨p, dp0, hp0, hlp0, hplt, hhp⟩ := hI.parent id d0 hold hne
        obtain ⟨dp', hdp', hh', hb'⟩ := pres p dp0 hlp0
        cases hd
        split
        · exact ⟨p, dp', hp0, hdp', hplt, by rw [hh']; exact hhp⟩
        · exact ⟨p, dp', hp0, hdp', hplt, by rw [hh']; exact hhp⟩
  have hroot : ∀ id d, (publishedChain c b pid pd).lookup id = some d →
      d.block.parent_id = none → id = 0 := by
    intro id d hd hpn
    rw [hlk id] at hd
    split at hd
    · cases hd
      rw [hpar] at hpn
      exact Option.noConfusion hpn
    · cases hold : c.lookup id with
      | none => rw [hold] at hd; exact Option.noConfusion hd
      | some d0 =>
        rw [hold] at hd
        rw [Option.map_some'] at hd
        cases hd
        refine hI.root id d0 hold ?_
        revert hpn
        split
        · exact fun hx => hx
        · exact fun hx => hx
  by_cases hmax : c.max_height < pd.height + 1
  · -- new maximum height: blocks_by_height gains a level
    have hpdmax : pd.height = c.max_height :=
      Nat.le_antisymm (hI.height_le hlook) (by omega)
    have hbbh : (publishedChain c b pid pd).blocks_by_height =
        c.blocks_by_height ++ [[b.id]] := by
      unfold publishedChain
      rw [if_pos hmax]
    have hm : (publishedChain c b pid pd).max_height = pd.height + 1 := by
      unfold publishedChain
      rw [if_pos hmax]
    refine ⟨hkeys, hnodup, hgen, hparent, hroot, ?_, ?_, ?_, ?_⟩
    · rw [hbbh, hm, List.length_append, hI.bbh_len, hpdmax]
      rfl
    · intro h hs hget id hid
      rw [hbbh] at hget
      rcases Nat.lt_trichotomy h c.blocks_by_height.length with hlt' | heq | hgt
      · rw [List.getElem?_append_left hlt'] at hget
        obtain ⟨d, hd, hh⟩ := hI.bbh_sound h hs hget id hid
        obtain ⟨d', hd', hh', _⟩ := pres id d hd
        exact ⟨d', hd', by rw [hh']; exact hh⟩
      · subst heq
        simp only [List.getElem?_append_right (Nat.le_refl _), Nat.sub_self,
          List.getElem?_cons_zero] at hget
        cases hget
        have hid' : id = b.id := by
          cases hid with
          | head => rfl
          | tail _ hx => cases hx
        subst hid'
        refine ⟨⟨b, pd.height + 1, []⟩, hlknew, ?_⟩
        rw [hI.bbh_len, hpdmax]
      · rw [List.getElem?_eq_none_iff.mpr (by simp; omega)] at hget
        exact Option.noConfusion hget
    · intro id d hd
      rw [hlk id] at hd
      split at hd
      · next hbi =>
        cases hd
        rw [hbbh]
        refine ⟨[b.id], ?_, by rw [← hbi]; exact List.mem_singleton.mpr rfl⟩
        show (c.blocks_by_height ++ [[b.id]])[pd.height + 1]? = some [b.id]
        have hlen : pd.height + 1 = c.blocks_by_height.length := by
          rw [hI.bbh_len, hpdmax]
        rw [hlen]
        simp
      · cases hold : c.lookup id with
        | none => rw [hold] at hd; exact Option.noConfusion hd
        | some d0 =>
          rw [hold] at hd
          rw [Option.map_some'] at hd
          obtain ⟨hs, hget, hmem⟩ := hI.bbh_complete id d0 hold
          have hdh : d.height = d0.height := by
            cases hd
            split
            · rfl
            · rfl
          have hlt' : d0.height < c.blocks_by_height.length := by
            by_contra hge
            rw [List.getElem?_eq_none_iff.mpr (Nat.le_of_not_lt hge)] at hget
            exact Option.noConfusion hget
          rw [hbbh, hdh]
          exact ⟨hs, by rw [List.getElem?_append_left hlt']; exact hget, hmem⟩
    · intro h hs hget
      rw [hbbh] at hget
      rcases Nat.lt_trichotomy h c.blocks_by_height.length with hlt' | heq | hgt
      · rw [List.getElem?_append_left hlt'] at hget
        exact hI.bbh_ne h hs hget
      · subst heq
        simp only [List.getElem?_append_right (Nat.le_refl _), Nat.sub_self,
          List.getElem?_cons_zero] at hget
        cases hget
        simp
      · rw [List.getElem?_eq_none_iff.mpr (by simp; omega)] at hget
        exact Option.noConfusion hget
  · -- height within the existing range: the level list is extended
    have hHlt : pd.height + 1 < c.blocks_by_height.length := by
      rw [hI.bbh_len]
      omega
    obtain ⟨hsH, hgetH⟩ : ∃ hs, c.blocks_by_height[pd.height + 1]? = some hs :=
      ⟨_, List.getElem?_eq_getElem hHlt⟩
    have hbbh : (publishedChain c b pid pd).blocks_by_height =
        c.blocks_by_height.set (pd.height + 1) (hsH ++ [b.id]) := by
      unfold publishedChain
      rw [if_neg hmax]
      simp [hgetH]
    have hm : (publishedChain c b pid pd).max_height = c.max_height := by
      unfold publishedChain
      rw [if_neg hmax]
    refine ⟨hkeys, hnodup, hgen, hparent, hroot, ?_, ?_, ?_, ?_⟩
    · rw [hbbh, hm, List.length_set]
      exact hI.bbh_len
    · intro h hs hget id hid
      rw [hbbh] at hget
      by_cases hh : h = pd.height + 1
      · subst hh
        rw [List.getElem?_set_eq hHlt] at hget
        cases hget
        rcases List.mem_append.mp hid with hid | hid
        · obtain ⟨d, hd, hdh⟩ := hI.bbh_sound _ hsH hgetH id hid
          obtain ⟨d', hd', hh', _⟩ := pres id d hd
          exact ⟨d', hd', by rw [hh']; exact hdh⟩
        · have hid' : id = b.id := by
            cases hid with
            | head => rfl
            | tail _ hx => cases hx
          subst hid'
          exact ⟨⟨b, pd.height + 1, []⟩, hlknew, rfl⟩
      · rw [List.getElem?_set_ne (fun hx => hh hx.symm)] at hget
        obtain ⟨d, hd, hdh⟩ := hI.bbh_sound h hs hget id hid
        obtain ⟨d', hd', hh', _⟩ := pres id d hd
        exact ⟨d', hd', by rw [hh']; exact hdh⟩
    · intro id d hd
      rw [hlk id] at hd
      split at hd
      · next hbi =>
        cases hd
        rw [hbbh]
        refine ⟨hsH ++ [b.id], ?_, ?_⟩
        · show (c.blocks_by_height.set (pd.height + 1)
              (hsH ++ [b.id]))[pd.height + 1]? = some (hsH ++ [b.id])
          exact List.getElem?_set_eq hHlt
        · rw [← hbi]
          simp
      · cases hold : c.lookup id with
        | none => rw [hold] at hd; exact Option.noConfusion hd
        | some d0 =>
          rw [hold] at hd
          rw [Option.map_some'] at hd
          obtain ⟨hs, hget, hmem⟩ := hI.bbh_complete id d0 hold
          have hdh : d.height = d0.height := by
            cases hd
            split
            · rfl
            · rfl
          rw [hbbh, hdh]
          by_cases hh : d0.height = pd.height + 1
          · rw [hh] at hget ⊢
            rw [hgetH] at hget
            cases hget
            exact ⟨hsH ++ [b.id], List.getElem?_set_eq hHlt,
              List.mem_append_left _ hmem⟩
          · rw [List.getElem?_set_ne (fun hx => hh hx.symm)]
            exact ⟨hs, hget, hmem⟩
    · intro h hs hget
      rw [hbbh] at hget
      by_cases hh : h = pd.height + 1
      · subst hh
        rw [List.getElem?_set_eq hHlt] at hget
        cases hget
        simp
      · rw [List.getElem?_set_ne (fun hx => hh hx.symm)] at hget
        exact hI.bbh_ne h hs hget

/-- Every reachable chain satisfies the invariant. -/
theorem inv_reachable {c : Blockchain} (h : Reachable c) : Inv c := by
  induction h with
  | new => exact inv_new
  | publish b _ hpub ih => exact inv_publish ih hpub

/-! ## Claim C10 -/

/-- C10: for every blockchain state and block `b`, if `publish b` returns
any of its four errors, the chain is left exactly as it was — block map,
per-height id lists (hence every child list) and `max_height` unchanged;
all validation completes before any mutation. -/
theorem publish_error_preserves_chain (c : Blockchain) (b : Block)
    (e : BlockPublishingError) (h : (c.publish b).1 = some e) :
    (c.publish b).2.blocks = c.blocks ∧
    (c.publish b).2.blocks_by_height = c.blocks_by_height ∧
    (c.publish b).2.max_height = c.max_height := by
  have h2 := publish_error_helper c b (by rw [h]; rfl)
  rw [h2]
  exact ⟨rfl, rfl, rfl⟩

/-- Witness for C10: republishing the genesis block is rejected as a
duplicate and leaves `Blockchain::new` untouched. -/
theorem publish_error_preserves_chain_witness :
    (Blockchain.new.publish ⟨0, none, 0, []⟩).2.blocks = Blockchain.new.blocks ∧
    (Blockchain.new.publish ⟨0, none, 0, []⟩).2.blocks_by_height =
      Blockchain.new.blocks_by_height ∧
    (Blockchain.new.publish ⟨0, none, 0, []⟩).2.max_height =
      Blockchain.new.max_height :=
  publish_error_preserves_chain Blockchain.new ⟨0, none, 0, []⟩
    (.DuplicateBlockID 0) (by decide)

/-! ## Claim C1 -/

/-- C1: on every reachable chain, `publish b` checks, in order:
duplicate id, missing parent id, unknown parent, id not strictly greater
than the parent's id — and otherwise succeeds, recording `b` at height
`parent.height + 1`, appending `b.id` to the per-height list at that
height (extending the list-of-lists and `max_height` exactly when the
height is one past the previous maximum) and adding `b.id` to its
parent's child list, leaving every other entry untouched. -/
theorem publish_validation_spec (c : Blockchain) (b : Block)
    (hr : Reachable c) :
    (c.contains b.id = true → c.publish b = (some (.DuplicateBlockID b.id), c)) ∧
    (c.contains b.id = false → b.parent_id = none →
      c.publish b = (some (.NoParentGiven b.id), c)) ∧
    (∀ p, c.contains b.id = false → b.parent_id = some p →
      c.lookup p = none → c.publish b = (some (.ParentNotFound b.id p), c)) ∧
    (∀ p dp, c.contains b.id = false → b.parent_id = some p →
      c.lookup p = some dp → b.id ≤ p →
      c.publish b = (some (.InvalidParent b.id p), c)) ∧
    (∀ p dp, c.contains b.id = false → b.parent_id = some p →
      c.lookup p = some dp → p < b.id →
      ∃ c', c.publish b = (none, c') ∧
        c'.lookup b.id = some ⟨b, dp.height + 1, []⟩ ∧
        c'.lookup p = some { dp with children := dp.children ++ [b.id] } ∧
        (∀ q, q ≠ b.id → q ≠ p → c'.lookup q = c.lookup q) ∧
        (c.max_height < dp.height + 1 →
          c'.blocks_by_height = c.blocks_by_height ++ [[b.id]] ∧
          c'.max_height = c.max_height + 1) ∧
        (dp.height + 1 ≤ c.max_height →
          c'.max_height = c.max_height ∧
          c'.blocks_by_height = c.blocks_by_height.set (dp.height + 1)
            ((c.blocks_by_height[dp.height + 1]?.getD []) ++ [b.id]))) := by
  have hI := inv_reachable hr
  refine ⟨fun h => publish_dup h, fun h hp => publish_no_parent h hp,
    fun p h hp hl => publish_parent_not_found h hp hl, ?_, ?_⟩
  · intro p dp h hp hl hle
    have hle' : b.id ≤ dp.block.id := by
      rw [hI.keys p dp hl]
      exact hle
    exact publish_invalid_parent h hp hl hle'
  · intro p dp h hp hl hlt
    have hlt' : dp.block.id < b.id := by
      rw [hI.keys p dp hl]
      exact hlt
    have hpub := publish_success h hp hl hlt'
    have hnone : c.lookup b.id = none := by
      unfold Blockchain.contains at h
      cases hx : c.lookup b.id with
      | none => rfl
      | some d => rw [hx] at h; simp at h
    have hlk := lookup_publishedChain c b p dp
    refine ⟨publishedChain c b p dp, hpub, ?_, ?_, ?_, ?_, ?_⟩
    · rw [hlk b.id]
      simp
    · have hne : b.id ≠ p := Nat.ne_of_gt hlt
      rw [hlk p, if_neg hne, hl, Option.map_some', if_pos rfl]
    · intro q hq1 hq2
      rw [hlk q, if_neg (fun hx => hq1 hx.symm)]
      cases hq : c.lookup q with
      | none => rfl
      | some d0 => rw [Option.map_some', if_neg hq2]
    · intro hmax
      have hpd : dp.height = c.max_height :=
        Nat.le_antisymm (hI.height_le hl) (by omega)
      constructor
      · unfold publishedChain
        rw [if_pos hmax]
      · unfold publishedChain
        rw [if_pos hmax]
        rw [hpd]
    · intro hle
      have hmax : ¬ c.max_height < dp.height + 1 := by omega
      constructor
      · unfold publishedChain
        rw [if_neg hmax]
      · unfold publishedChain
        rw [if_neg hmax]

/-- Witness for C1: publishing block 1 on top of genesis on a fresh
chain succeeds and stores it at height 1. -/
theorem publish_validation_spec_witness :
    ∃ c', Blockchain.new.publish ⟨1, some 0, 1, []⟩ = (none, c') ∧
      c'.lookup 1 = some ⟨⟨1, some 0, 1, []⟩, 1, []⟩ ∧
      c'.lookup 0 = some ⟨genesisBlock, 0, [1]⟩ ∧
      (∀ q, q ≠ 1 → q ≠ 0 → c'.lookup q = Blockchain.new.lookup q) ∧
      (Blockchain.new.max_height < 1 →
        c'.blocks_by_height = Blockchain.new.blocks_by_height ++ [[1]] ∧
        c'.max_height = Blockchain.new.max_height + 1) ∧
      (1 ≤ Blockchain.new.max_height →
        c'.max_height = Blockchain.new.max_height ∧
        c'.blocks_by_height = Blockchain.new.blocks_by_height.set 1
          ((Blockchain.new.blocks_by_height[1]?.getD []) ++ [1])) :=
  (publish_validation_spec Blockchain.new ⟨1, some 0, 1, []⟩
    Reachable.new).2.2.2.2 0 ⟨genesisBlock, 0, []⟩ (by decide) rfl rfl
    (by decide)

/-! ## Claim C2 -/

/-- Exactly-one-count helper: in a duplicate-free list, filtering for a
present element yields exactly one hit. -/
theorem filter_eq_one_of_nodup {l : List Nat} (hnd : l.Nodup) {a : Nat}
    (ha : a ∈ l) : (l.filter (fun k => k == a)).length = 1 := by
  induction l with
  | nil => cases ha
  | cons x xs ih =>
    rw [List.nodup_cons] at hnd
    rcases List.mem_cons.mp ha with h | h
    · subst h
      have hnil : xs.filter (fun k => k == a) = [] := by
        rw [List.filter_eq_nil]
        intro b hb
        simp only [beq_iff_eq]
        intro hba
        rw [hba] at hb
        exact hnd.1 hb
      simp [List.filter, hnil]
    · have hxa : (x == a) = false := by
        simp only [beq_eq_false_iff_ne, ne_eq]
        intro hx
        rw [hx] at hnd
        exact hnd.1 h
      simp [List.filter, hxa]
      exact ih hnd.2 h

/-- C2: every chain reachable from `new` by successful publishes has
exactly one block with id 0 — the genesis block, parentless at height 0;
every other block's id strictly exceeds its parent's id; `tip()` is
never empty; and `max_height` equals the maximum height over all blocks. -/
theorem chain_invariants (c : Blockchain) (hr : Reachable c) :
    (∃ ch, c.lookup 0 = some ⟨genesisBlock, 0, ch⟩) ∧
    ((c.blocks.map Prod.fst).filter (fun k => k == 0)).length = 1 ∧
    (∀ id d, c.lookup id = some d → id ≠ 0 →
      ∃ p, d.block.parent_id = some p ∧ p < id) ∧
    c.tip ≠ [] ∧
    c.max_height ∈ c.blocks.map (fun e => e.2.height) ∧
    (∀ h ∈ c.blocks.map (fun e => e.2.height), h ≤ c.max_height) := by
  have hI := inv_reachable hr
  obtain ⟨ch, hg⟩ := hI.genesis
  have h0mem : (0 : BlockId) ∈ c.blocks.map Prod.fst :=
    List.mem_map_of_mem Prod.fst (lookupB_mem hg)
  refine ⟨⟨ch, hg⟩, filter_eq_one_of_nodup hI.nodup h0mem, ?_, ?_, ?_, ?_⟩
  · intro id d hd hne
    obtain ⟨p, dp, hp, _, hplt, _⟩ := hI.parent id d hd hne
    exact ⟨p, hp, hplt⟩
  · have hbne : c.blocks_by_height ≠ [] := by
      intro hx
      have := hI.bbh_len
      rw [hx] at this
      exact Nat.noConfusion this
    obtain ⟨last, hlast⟩ : ∃ a, c.blocks_by_height.getLast? = some a := by
      cases hl : c.blocks_by_height.getLast? with
      | none => exact absurd (List.getLast?_eq_none_iff.mp hl) hbne
      | some a => exact ⟨a, rfl⟩
    obtain ⟨n, hn⟩ :=
      List.mem_iff_getElem?.mp (List.mem_of_mem_getLast? hlast)
    have hlne := hI.bbh_ne n last hn
    unfold Blockchain.tip
    rw [hlast]
    exact hlne
  · have hmaxlt : c.max_height < c.blocks_by_height.length := by
      rw [hI.bbh_len]
      omega
    have hget := List.getElem?_eq_getElem hmaxlt
    have hlne := hI.bbh_ne _ _ hget
    obtain ⟨id, hid⟩ := List.exists_mem_of_ne_nil _ hlne
    obtain ⟨d, hd, hh⟩ := hI.bbh_sound _ _ hget id hid
    have hmem : (id, d) ∈ c.blocks := lookupB_mem hd
    have hmm : d.height ∈ List.map (fun e => e.2.height) c.blocks :=
      List.mem_map_of_mem (fun e => e.2.height) hmem
    rw [hh] at hmm
    exact hmm
  · intro h hmem
    obtain ⟨e, hmem', he⟩ := List.mem_map.mp hmem
    have hl : c.lookup e.1 = some e.2 := mem_lookupB hI.nodup (by
      cases e
      exact hmem')
    have := hI.height_le hl
    rw [he] at this
    exact this

/-- Witness for C2: the invariants evaluated on a fresh chain after one
successful publish. -/
theorem chain_invariants_witness :
    (∃ ch, (Blockchain.new.publish ⟨1, some 0, 1, []⟩).2.lookup 0 =
      some ⟨genesisBlock, 0, ch⟩) ∧
    (((Blockchain.new.publish ⟨1, some 0, 1, []⟩).2.blocks.map
      Prod.fst).filter (fun k => k == 0)).length = 1 ∧
    (∀ id d, (Blockchain.new.publish ⟨1, some 0, 1, []⟩).2.lookup id = some d →
      id ≠ 0 → ∃ p, d.block.parent_id = some p ∧ p < id) ∧
    (Blockchain.new.publish ⟨1, some 0, 1, []⟩).2.tip ≠ [] ∧
    (Blockchain.new.publish ⟨1, some 0, 1, []⟩).2.max_height ∈
      (Blockchain.new.publish ⟨1, some 0, 1, []⟩).2.blocks.map
        (fun e => e.2.height) ∧
    (∀ h ∈ (Blockchain.new.publish ⟨1, some 0, 1, []⟩).2.blocks.map
      (fun e => e.2.height),
      h ≤ (Blockchain.new.publish ⟨1, some 0, 1, []⟩).2.max_height) :=
  chain_invariants (Blockchain.new.publish ⟨1, some 0, 1, []⟩).2
    (Reachable.publish ⟨1, some 0, 1, []⟩ Reachable.new (by decide))

/-! ## Claim C8 -/

/-- The ancestor walk on an invariant-satisfying chain, with any
sufficient fuel: it starts at `id`, its ids strictly decrease (each step
moves to the parent, whose id is strictly smaller), it ends at genesis,
and its length is `height + 1`. -/
theorem ancestorsGo_spec {c : Blockchain} (hI : Inv c) :
    ∀ id d, c.lookup id = some d → ∀ f, id < f →
      (ancestorsGo c f id).length = d.height + 1 ∧
      (ancestorsGo c f id).getLast? = some 0 ∧
      (ancestorsGo c f id).head? = some id ∧
      List.Chain' (fun a b => b < a) (ancestorsGo c f id) := by
  intro id
  induction id using Nat.strong_induction_on with
  | _ id ih =>
    intro d hd f hf
    match f, hf with
    | f + 1, hf =>
      cases hp : d.block.parent_id with
      | none =>
        have hunf : ancestorsGo c (f + 1) id = [id] := by
          simp [ancestorsGo, hd, hp]
        have hid0 : id = 0 := hI.root id d hd hp
        obtain ⟨ch, hg⟩ := hI.genesis
        have hdg : d = ⟨genesisBlock, 0, ch⟩ := by
          rw [hid0] at hd
          exact Option.some.inj (hd.symm.trans hg)
        rw [hunf, hdg, hid0]
        exact ⟨rfl, rfl, rfl, List.chain'_singleton 0⟩
      | some p =>
        have hunf : ancestorsGo c (f + 1) id = id :: ancestorsGo c f p := by
          simp [ancestorsGo, hd, hp]
        have hne0 : id ≠ 0 := by
          intro h0
          obtain ⟨ch, hg⟩ := hI.genesis
          rw [h0] at hd
          have hdg : d = ⟨genesisBlock, 0, ch⟩ :=
            Option.some.inj (hd.symm.trans hg)
          rw [hdg] at hp
          exact Option.noConfusion hp
        obtain ⟨p', dp, hp', hlp, hplt, hh⟩ := hI.parent id d hd hne0
        have hpp : p' = p := Option.some.inj (hp'.symm.trans hp)
        subst hpp
        have hrec := ih p' hplt dp hlp f
          (Nat.lt_of_lt_of_le hplt (Nat.lt_succ_iff.mp hf))
        have hrest_ne : ancestorsGo c f p' ≠ [] := by
          intro hx
          rw [hx] at hrec
          exact Nat.noConfusion hrec.1
        refine ⟨?_, ?_, ?_, ?_⟩
        · rw [hunf, List.length_cons, hrec.1, hh]
        · rw [hunf]
          cases hrl : ancestorsGo c f p' with
          | nil => exact absurd hrl hrest_ne
          | cons x xs =>
            rw [List.getLast?_cons_cons]
            rw [← hrl]
            exact hrec.2.1
        · rw [hunf]
          rfl
        · rw [hunf]
          refine List.chain'_cons'.mpr ⟨?_, hrec.2.2.2⟩
          intro y hy
          rw [hrec.2.2.1] at hy
          cases hy
          exact hplt

/-- C8: on every reachable chain, for every block id on the chain, the
`ancestors_of` walk terminates — each step moves to the parent, whose id
is strictly smaller, so the walk is well-founded (the produced sequence
is strictly decreasing and reaches the genesis block without exhausting
its fuel) — and its length is exactly `height(id) + 1`, its last element
the genesis block. -/
theorem ancestors_of_spec (c : Blockchain) (id : BlockId) (d : BlockData)
    (hr : Reachable c) (hd : c.lookup id = some d) :
    (c.ancestors_of id).length = d.height + 1 ∧
    (c.ancestors_of id).getLast? = some 0 ∧
    List.Chain' (fun a b => b < a) (c.ancestors_of id) := by
  have hI := inv_reachable hr
  have hcont : c.contains id = true := by
    unfold Blockchain.contains
    rw [hd]
    rfl
  have hspec := ancestorsGo_spec hI id d hd (id + 1) (Nat.lt_succ_self id)
  unfold Blockchain.ancestors_of
  rw [hcont]
  exact ⟨hspec.1, hspec.2.1, hspec.2.2.2⟩

/-- Witness for C8 at a two-block chain: the walk from block 1 has
length `height(1) + 1 = 2` and ends at genesis. -/
theorem ancestors_of_spec_witness :
    ((Blockchain.new.publish ⟨1, some 0, 1, []⟩).2.ancestors_of 1).length =
      1 + 1 ∧
    ((Blockchain.new.publish ⟨1, some 0, 1, []⟩).2.ancestors_of 1).getLast? =
      some 0 ∧
    List.Chain' (fun a b => b < a)
      ((Blockchain.new.publish ⟨1, some 0, 1, []⟩).2.ancestors_of 1) :=
  ancestors_of_spec (Blockchain.new.publish ⟨1, some 0, 1, []⟩).2 1
    ⟨⟨1, some 0, 1, []⟩, 1, []⟩
    (Reachable.publish ⟨1, some 0, 1, []⟩ Reachable.new (by decide))
    (by decide)

/-! ## Claim C3 -/

/-- C3: when `Selfish::get_action` is called without a proposed block,
it first discards the whole hidden queue if the recorded private height
is strictly below the chain's `max_height`; then: empty queue → `Wait`;
exactly 2 hidden blocks → `PublishSet` of both in queue order, leaving
the queue empty; otherwise (1 or ≥ 3 hidden) → `Publish` of the
front-most hidden block only, which is removed from the queue. -/
theorem selfish_nonproposer_spec (s s1 : Selfish) (chain : Blockchain)
    (hs1 : s1 = if s.private_height < chain.max_height then
      { s with hidden_blocks := [] } else s) :
    (s1.hidden_blocks = [] → s.get_action chain none = some (.Wait, s1)) ∧
    (∀ b1 b2, s1.hidden_blocks = [b1, b2] →
      s.get_action chain none =
        some (.PublishSet [b1, b2], { s1 with hidden_blocks := [] })) ∧
    (∀ b rest, s1.hidden_blocks = b :: rest → rest.length ≠ 1 →
      s.get_action chain none =
        some (.Publish b, { s1 with hidden_blocks := rest })) := by
  subst hs1
  refine ⟨?_, ?_, ?_⟩
  · intro h
    simp only [Selfish.get_action]
    rw [h]
  · intro b1 b2 h
    simp only [Selfish.get_action]
    rw [h]
  · intro b rest h hlen
    simp only [Selfish.get_action]
    rw [h]
    cases rest with
    | nil => rfl
    | cons r2 rest2 =>
      cases rest2 with
      | nil => exact absurd rfl hlen
      | cons r3 rest3 => rfl

/-- Witness for C3: a selfish miner holding exactly 2 hidden blocks,
whose private height is not behind, drains both via `PublishSet`. -/
theorem selfish_nonproposer_spec_witness :
    Selfish.get_action
        ⟨[⟨2, some 0, 2, []⟩, ⟨3, some 2, 2, []⟩], 2, 2, .FavorMiner 2⟩
        Blockchain.new none =
      some (.PublishSet [⟨2, some 0, 2, []⟩, ⟨3, some 2, 2, []⟩],
        ⟨[], 2, 2, .FavorMiner 2⟩) :=
  (selfish_nonproposer_spec
      ⟨[⟨2, some 0, 2, []⟩, ⟨3, some 2, 2, []⟩], 2, 2, .FavorMiner 2⟩ _
      Blockchain.new rfl).2.1 ⟨2, some 0, 2, []⟩ ⟨3, some 2, 2, []⟩ (by decide)

/-! ## Claim C4 -/

/-- C4: with the post-update state stack `[A(1), H(x)]`, or
`[A(1), H(x), A(1)]` with `x ≠ 1` (so outside the `[A(1), H(1), A(1)]`
publish case), `NDeficit::map_state` returns `Wait`; if `x > i` it first
capitulates to `honest_blocks[x - 1]` — the newest honest block seen —
clearing the state stack, the seen set, `our_blocks` and
`honest_blocks`, so the next call starts from a clean `[]` state; if
`x ≤ i` it leaves the capitulation point and every queue unchanged. -/
theorem ndeficit_capitulation_spec (s : NDeficitState) (x : Nat)
    (hshape : s.state = [.A 1, .H x] ∨
      (s.state = [.A 1, .H x, .A 1] ∧ x ≠ 1)) :
    (∀ hb, x > s.i → s.honest_blocks[x - 1]? = some hb →
      NDeficit.map_state s =
        some (.Wait, ⟨s.i, s.id, s.tie_breaker, hb, [], [], [], []⟩)) ∧
    (x ≤ s.i → NDeficit.map_state s = some (.Wait, s)) := by
  obtain ⟨i, mid, tb, cap, st, sn, ob, hbl⟩ := s
  have harm : ∀ st0, st0 = [StateEntry.A 1, StateEntry.H x] ∨
      (st0 = [StateEntry.A 1, StateEntry.H x, StateEntry.A 1] ∧ x ≠ 1) →
      NDeficit.map_state ⟨i, mid, tb, cap, st0, sn, ob, hbl⟩ =
        (if x > i then
          match hbl[x - 1]? with
          | none => none
          | some hb => some (.Wait, ⟨i, mid, tb, hb, [], [], [], []⟩)
        else some (.Wait, ⟨i, mid, tb, cap, st0, sn, ob, hbl⟩)) := by
    intro st0 hshape0
    rcases hshape0 with hst | ⟨hst, hx1⟩
    · subst hst
      match x with
      | 0 => rfl
      | 1 => rfl
      | n + 2 => rfl
    · subst hst
      match x, hx1 with
      | 0, _ => rfl
      | n + 2, _ => rfl
  simp only at hshape
  rw [harm st hshape]
  constructor
  · intro hb hxi hget
    rw [if_pos hxi, hget]
  · intro hxi
    rw [if_neg (Nat.not_lt.mpr hxi)]

/-- Witness for C4: tolerance `i = 1`, honest run `x = 2 > i`:
`map_state` waits and capitulates to `honest_blocks[1] = 7`, clearing
all bookkeeping. -/
theorem ndeficit_capitulation_spec_witness :
    NDeficit.map_state
        ⟨1, 2, .FavorMiner 2, 0, [.A 1, .H 2], [9, 4, 7], [9], [4, 7]⟩ =
      some (.Wait, ⟨1, 2, .FavorMiner 2, 7, [], [], [], []⟩) :=
  (ndeficit_capitulation_spec
      ⟨1, 2, .FavorMiner 2, 0, [.A 1, .H 2], [9, 4, 7], [9], [4, 7]⟩ 2
      (Or.inl rfl)).1 7 (by decide) rfl

/-! ## Claim C9 -/

/-- Unfolding of `NDeficit::map_state` in a `[A(k), ..]`, `k ≥ 2`
state. -/
theorem ndeficit_map_state_arm_A2 (i mid : Nat) (tb : TieBreaker)
    (cap : BlockId) (sn ob hbl : List BlockId) (k : Nat)
    (rest : List StateEntry) :
    NDeficit.map_state ⟨i, mid, tb, cap, .A (k + 2) :: rest, sn, ob, hbl⟩ =
      (if ob.length = hbl.length + 1 then
        NDeficitState.publish_all ⟨i, mid, tb, cap, .A (k + 2) :: rest, sn, ob, hbl⟩
      else
        some (.Wait, ⟨i, mid, tb, cap, .A (k + 2) :: rest, sn, ob, hbl⟩)) := rfl

/-- Unfolding of `NDeficitEager::map_state` in a `[A(k), ..]`, `k ≥ 2`
state: it additionally publishes via `publish_one` whenever any honest
block has been seen. -/
theorem ndeficiteager_map_state_arm_A2 (i mid : Nat) (tb : TieBreaker)
    (cap : BlockId) (sn ob hbl : List BlockId) (k : Nat)
    (rest : List StateEntry) :
    NDeficitEager.map_state ⟨i, mid, tb, cap, .A (k + 2) :: rest, sn, ob, hbl⟩ =
      (if ob.length = hbl.length + 1 then
        NDeficitState.publish_all ⟨i, mid, tb, cap, .A (k + 2) :: rest, sn, ob, hbl⟩
      else if hbl.length > 0 then
        NDeficitState.publish_one ⟨i, mid, tb, cap, .A (k + 2) :: rest, sn, ob, hbl⟩
      else none) := rfl

/-- The hidden path built by `block_path_to` ends in a block carrying
the last hidden id. -/
theorem blockPathList_getLast (mid : MinerId) :
    ∀ (l : List BlockId) (parent lb : BlockId), l.getLast? = some lb →
      ∃ B, (blockPathList mid l parent).getLast? = some B ∧ B.id = lb := by
  intro l
  induction l with
  | nil => intro parent lb h; exact Option.noConfusion h
  | cons a rest ih =>
    intro parent lb h
    cases rest with
    | nil =>
      have hlb : a = lb := Option.some.inj h
      exact ⟨⟨a, some parent, mid, []⟩, rfl, hlb⟩
    | cons b rest2 =>
      rw [List.getLast?_cons_cons] at h
      obtain ⟨B, hB, hBid⟩ := ih a lb h
      refine ⟨B, ?_, hBid⟩
      show (blockPathList mid (a :: b :: rest2) parent).getLast? = some B
      rw [show blockPathList mid (a :: b :: rest2) parent =
        ⟨a, some parent, mid, []⟩ :: blockPathList mid (b :: rest2) a from rfl]
      rw [show blockPathList mid (b :: rest2) a =
        ⟨b, some a, mid, []⟩ :: blockPathList mid rest2 b from rfl] at hB ⊢
      rw [List.getLast?_cons_cons]
      exact hB

/-- Rust `publish_all` drains the whole hidden queue into the parent-linked
path anchored at the capitulation point and re-anchors capitulation at
the last published block. -/
theorem publish_all_spec (s : NDeficitState) (lb : BlockId)
    (hlast : s.our_blocks.getLast? = some lb) :
    s.publish_all =
      some (.PublishSet (blockPathList s.id s.our_blocks s.capitulation),
        ⟨s.i, s.id, s.tie_breaker, lb, [], [], [], []⟩) := by
  obtain ⟨B, hB, hBid⟩ :=
    blockPathList_getLast s.id s.our_blocks s.capitulation lb hlast
  unfold NDeficitState.publish_all NDeficitState.block_path_to
  simp only
  rw [hB, ← hBid]
  rfl

/-- Rust `publish_one` in the source drains the whole hidden queue exactly
like `publish_all` (the partial-publish variant is commented out). -/
theorem publish_one_spec (s : NDeficitState) (lb : BlockId)
    (hlast : s.our_blocks.getLast? = some lb) :
    s.publish_one =
      some (.PublishSet (blockPathList s.id s.our_blocks s.capitulation),
        ⟨s.i, s.id, s.tie_breaker, lb, [], [], [], []⟩) := by
  obtain ⟨B, hB, hBid⟩ :=
    blockPathList_getLast s.id s.our_blocks s.capitulation lb hlast
  unfold NDeficitState.publish_one NDeficitState.block_path_to
  simp only
  rw [hB, ← hBid]
  rfl

/-- C9: in a state `[A(k), ..]` with `k ≥ 2`: if `our_blocks` and
`honest_blocks` have equal (non-zero) length, `NDeficitEager::map_state`
publishes — a `PublishSet` draining the whole hidden queue — while
`NDeficit::map_state` on the same state waits; if `our_blocks` is one
longer than `honest_blocks`, both publish the entire hidden path from
the capitulation point and re-anchor capitulation at the last published
block. -/
theorem ndeficit_eager_refinement (s : NDeficitState) (k : Nat)
    (rest : List StateEntry) (hstate : s.state = .A (k + 2) :: rest) :
    (s.our_blocks.length = s.honest_blocks.length → s.honest_blocks ≠ [] →
      NDeficit.map_state s = some (.Wait, s) ∧
      ∃ lb, s.our_blocks.getLast? = some lb ∧
        NDeficitEager.map_state s =
          some (.PublishSet (blockPathList s.id s.our_blocks s.capitulation),
            ⟨s.i, s.id, s.tie_breaker, lb, [], [], [], []⟩)) ∧
    (s.our_blocks.length = s.honest_blocks.length + 1 →
      ∃ lb, s.our_blocks.getLast? = some lb ∧
        NDeficit.map_state s =
          some (.PublishSet (blockPathList s.id s.our_blocks s.capitulation),
            ⟨s.i, s.id, s.tie_breaker, lb, [], [], [], []⟩) ∧
        NDeficitEager.map_state s =
          some (.PublishSet (blockPathList s.id s.our_blocks s.capitulation),
            ⟨s.i, s.id, s.tie_breaker, lb, [], [], [], []⟩)) := by
  obtain ⟨i, mid, tb, cap, st, sn, ob, hbl⟩ := s
  simp only at hstate ⊢
  subst hstate
  constructor
  · intro hlen hne
    have hne1 : ¬ ob.length = hbl.length + 1 := by omega
    constructor
    · rw [ndeficit_map_state_arm_A2, if_neg hne1]
    · have hob : ob ≠ [] := by
        intro hx
        rw [hx] at hlen
        exact hne (List.eq_nil_of_length_eq_zero hlen.symm)
      obtain ⟨lb, hlb⟩ : ∃ a, ob.getLast? = some a := by
        cases hl : ob.getLast? with
        | none => exact absurd (List.getLast?_eq_none_iff.mp hl) hob
        | some a => exact ⟨a, rfl⟩
      refine ⟨lb, hlb, ?_⟩
      rw [ndeficiteager_map_state_arm_A2, if_neg hne1,
        if_pos (by rw [← hlen]; exact List.length_pos.mpr (by
          intro hx
          rw [hx] at hlen
          exact hne (List.eq_nil_of_length_eq_zero hlen.symm)))]
      exact publish_one_spec ⟨i, mid, tb, cap, _, sn, ob, hbl⟩ lb hlb
  · intro hlen
    have hob : ob ≠ [] := by
      intro hx
      rw [hx] at hlen
      exact Nat.noConfusion hlen
    obtain ⟨lb, hlb⟩ : ∃ a, ob.getLast? = some a := by
      cases hl : ob.getLast? with
      | none => exact absurd (List.getLast?_eq_none_iff.mp hl) hob
      | some a => exact ⟨a, rfl⟩
    refine ⟨lb, hlb, ?_, ?_⟩
    · rw [ndeficit_map_state_arm_A2, if_pos hlen]
      exact publish_all_spec ⟨i, mid, tb, cap, _, sn, ob, hbl⟩ lb hlb
    · rw [ndeficiteager_map_state_arm_A2, if_pos hlen]
      exact publish_all_spec ⟨i, mid, tb, cap, _, sn, ob, hbl⟩ lb hlb

/-- Witness for C9: two hidden blocks against two honest blocks — the
eager miner drains its queue while the plain N-Deficit miner waits. -/
theorem ndeficit_eager_refinement_witness :
    NDeficit.map_state ⟨0, 3, .FavorMiner 3, 10, [.A 2], [], [5, 8], [4, 6]⟩ =
      some (.Wait, ⟨0, 3, .FavorMiner 3, 10, [.A 2], [], [5, 8], [4, 6]⟩) ∧
    ∃ lb, ([5, 8] : List BlockId).getLast? = some lb ∧
      NDeficitEager.map_state
          ⟨0, 3, .FavorMiner 3, 10, [.A 2], [], [5, 8], [4, 6]⟩ =
        some (.PublishSet (blockPathList 3 [5, 8] 10),
          ⟨0, 3, .FavorMiner 3, lb, [], [], [], []⟩) :=
  (ndeficit_eager_refinement
      ⟨0, 3, .FavorMiner 3, 10, [.A 2], [], [5, 8], [4, 6]⟩ 0 [] rfl).1
    rfl (by decide)

/-! ## Claim C5 -/

/-- The round loop is exactly the fold of `runRound` over the round
numbers `r, r + 1, …` in order. -/
theorem runRounds_eq_fold {M : Type} (ops : MinerOps M) (prop : Nat → MinerId) :
    ∀ (k r : Nat) (c : Blockchain) (ms : List M),
      runRounds ops k c ms prop r =
        (List.range' r k).foldlM
          (fun s r0 => runRound ops s.1 s.2 (prop r0) r0) (c, ms) := by
  intro k
  induction k with
  | zero => intro r c ms; rfl
  | succ k ih =>
    intro r c ms
    have hfold : ((List.range' r (k + 1)).foldlM
        (fun s r0 => runRound ops s.1 s.2 (prop r0) r0) (c, ms) :
          Except SimulationError (Blockchain × List M)) =
        runRound ops c ms (prop r) r >>= fun s =>
          (List.range' (r + 1) k).foldlM
            (fun s r0 => runRound ops s.1 s.2 (prop r0) r0) s := rfl
    have hrr : runRounds ops (k + 1) c ms prop r =
        match runRound ops c ms (prop r) r with
        | .error e => .error e
        | .ok (c1, ms1) => runRounds ops k c1 ms1 prop (r + 1) := rfl
    rw [hfold, hrr]
    cases h : runRound ops c ms (prop r) r with
    | error e => rfl
    | ok s =>
      obtain ⟨c1, ms1⟩ := s
      show runRounds ops k c1 ms1 prop (r + 1) = _
      rw [ih (r + 1) c1 ms1]
      rfl

/-- Within a round, the driver polls miners in registration order: if
running the prefix `ms1` produced chain `c1`, the next miner `m` is
called with exactly the proposer argument for this round and with `c1`,
which already holds every block the prefix published. -/
theorem runRound_append {M : Type} (ops : MinerOps M) (proposer : MinerId)
    (r : Nat) :
    ∀ (ms1 : List M) (c : Blockchain) (m : M) (ms2 : List M)
      (c1 : Blockchain) (ms1' : List M),
      runRound ops c ms1 proposer r = .ok (c1, ms1') →
      runRound ops c (ms1 ++ m :: ms2) proposer r =
        (match pollMiner ops c1 m
            (if proposer = ops.id m then some r else none) with
         | .error e => .error e
         | .ok (c2, m') =>
           match runRound ops c2 ms2 proposer r with
           | .error e => .error e
           | .ok (c3, ms2') => .ok (c3, ms1' ++ m' :: ms2')) := by
  have hcons : ∀ (c : Blockchain) (mh : M) (tl : List M),
      runRound ops c (mh :: tl) proposer r =
        match pollMiner ops c mh
            (if proposer = ops.id mh then some r else none) with
        | .error e => .error e
        | .ok (c1, m1) =>
          match runRound ops c1 tl proposer r with
          | .error e => .error e
          | .ok (c2, rest1) => .ok (c2, m1 :: rest1) :=
    fun _ _ _ => rfl
  intro ms1
  induction ms1 with
  | nil =>
    intro c m ms2 c1 ms1' h
    rw [show runRound ops c ([] : List M) proposer r = .ok (c, []) from rfl] at h
    cases h
    rw [List.nil_append]
    exact hcons c m ms2
  | cons mh ms1 ih =>
    intro c m ms2 c1 ms1' h
    rw [hcons c mh ms1] at h
    split at h
    · exact Except.noConfusion h
    · rename_i cmid mh' hp
      split at h
      · exact Except.noConfusion h
      · rename_i cb rest1 hr
        cases h
        rw [List.cons_append, hcons c mh (ms1 ++ m :: ms2), hp]
        show (match runRound ops cmid (ms1 ++ m :: ms2) proposer r with
          | Except.error e => (Except.error e :
              Except SimulationError (Blockchain × List M))
          | Except.ok (ca, rest') => Except.ok (ca, mh' :: rest')) =
          (match pollMiner ops c1 m
              (if proposer = ops.id m then some r else none) with
           | Except.error e => (Except.error e :
               Except SimulationError (Blockchain × List M))
           | Except.ok (ca, m') =>
             match runRound ops ca ms2 proposer r with
             | Except.error e => Except.error e
             | Except.ok (c3, ms2') =>
               Except.ok (c3, (mh' :: rest1) ++ m' :: ms2'))
        rw [ih cmid m ms2 c1 rest1 hr]
        cases pollMiner ops c1 m
            (if proposer = ops.id m then some r else none) with
        | error e => rfl
        | ok s2 =>
          obtain ⟨c3, m'⟩ := s2
          show (match (match runRound ops c3 ms2 proposer r with
              | Except.error e => (Except.error e :
                  Except SimulationError (Blockchain × List M))
              | Except.ok (c4, ms2') =>
                Except.ok (c4, rest1 ++ m' :: ms2')) with
            | Except.error e => (Except.error e :
                Except SimulationError (Blockchain × List M))
            | Except.ok (ca, rest') => Except.ok (ca, mh' :: rest')) =
            (match runRound ops c3 ms2 proposer r with
             | Except.error e => Except.error e
             | Except.ok (c4, ms2') =>
               Except.ok (c4, (mh' :: rest1) ++ m' :: ms2'))
          cases runRound ops c3 ms2 proposer r with
          | error e => rfl
          | ok s3 =>
            obtain ⟨c4, ms2'⟩ := s3
            rfl

/-- C5: the driver runs rounds `1..=n` in order (`Simulation::run` is
the fold of `runRound` over `[1, …, n]`), and within each round polls
the strategies in registration order, passing `some r` exactly to the
strategy whose id equals the drawn proposer and `none` to every other,
and publishing each returned block before the next strategy is polled —
so when the prefix before a strategy produced chain `c1`, that strategy
is polled on `c1`, which holds every block published earlier in the
round. -/
theorem round_driver_order_spec {M : Type} (ops : MinerOps M) :
    (∀ (c : Blockchain) (ms : List M) (prop : Nat → MinerId) (n : Nat),
      Simulation.run ops c ms prop n =
        (List.range' 1 n).foldlM
          (fun s r => runRound ops s.1 s.2 (prop r) r) (c, ms)) ∧
    (∀ (c : Blockchain) (ms1 : List M) (m : M) (ms2 : List M)
        (proposer : MinerId) (r : Nat) (c1 : Blockchain) (ms1' : List M),
      runRound ops c ms1 proposer r = .ok (c1, ms1') →
      runRound ops c (ms1 ++ m :: ms2) proposer r =
        (match pollMiner ops c1 m
            (if proposer = ops.id m then some r else none) with
         | .error e => .error e
         | .ok (c2, m') =>
           match runRound ops c2 ms2 proposer r with
           | .error e => .error e
           | .ok (c3, ms2') => .ok (c3, ms1' ++ m' :: ms2'))) :=
  ⟨fun c ms prop n => runRounds_eq_fold ops prop n 1 c ms,
   fun c ms1 m ms2 proposer r c1 ms1' h =>
     runRound_append ops proposer r ms1 c m ms2 c1 ms1' h⟩

/-- Witness for C5: two no-op miners; the second is polled with `none`
(id 2 is not the proposer) on the chain the first produced. -/
theorem round_driver_order_spec_witness :
    runRound noopOps Blockchain.new ([⟨1⟩] ++ (⟨2⟩ : Noop) :: [])
        1 1 =
      (match pollMiner noopOps Blockchain.new (⟨2⟩ : Noop)
          (if 1 = noopOps.id ⟨2⟩ then some 1 else none) with
       | .error e => .error e
       | .ok (c2, m') =>
         match runRound noopOps c2 ([] : List Noop) 1 1 with
         | .error e => .error e
         | .ok (c3, ms2') => .ok (c3, [(⟨1⟩ : Noop)] ++ m' :: ms2')) :=
  (round_driver_order_spec noopOps).2 Blockchain.new [⟨1⟩] ⟨2⟩ []
    1 1 Blockchain.new [⟨1⟩] rfl

/-! ## Claim C6 -/

/-- C6 (divergence): `rounds(0)` routes through `NonZeroUsize::new(0)`,
which yields `None`, so `build` treats the zero request exactly like an
unset round count and silently defaults it to 1 instead of returning the
declared `ZeroRounds` error; `repeat_all(0)` likewise defaults to 1
instead of `ZeroRepeats`.  Neither error variant is constructed anywhere
in the crate. -/
theorem zero_rounds_silently_defaults :
    (SimulationBuilder.new Noop).add_miner noopOps ⟨1⟩ =
      some ⟨none, [], none, none, [⟨1⟩], 2⟩ ∧
    ((⟨none, [], none, none, [⟨1⟩], 2⟩ :
        SimulationBuilder Noop).set_rounds 0).rounds = none ∧
    ((⟨none, [], none, none, [⟨1⟩], 2⟩ :
        SimulationBuilder Noop).set_rounds 0).build =
      .ok ⟨none, [⟨1⟩], [.Equal], 1, 1⟩ ∧
    ((⟨none, [], none, none, [⟨1⟩], 2⟩ :
        SimulationBuilder Noop).set_repeat_all 0).build =
      .ok ⟨none, [⟨1⟩], [.Equal], 1, 1⟩ :=
  ⟨rfl, rfl, rfl, rfl⟩

/-! ## Claim C7 -/

/-- C7 (divergence): the `SetValues` arm of `validate` checks elements
against the half-open Rust range `0.0..1.0`, so the boundary value 1.0
is rejected with `BadPowerValue` even though it lies in `[0, 1]` — the
error message itself advertises the inclusive range `0.0..=1.0`, the
`SetMiner` arm accepts 1.0, and the spec requires `[0, 1]` inclusive.
0.0 passes the element check (the first offending element is 1.0, not
0.0). -/
theorem setvalues_rejects_boundary_one :
    PowerDistribution.validate (.SetValues [F64.val 1]) 1 =
      some (.BadPowerValue (F64.val 1)) ∧
    PowerDistribution.validate (.SetValues [F64.val 0, F64.val 1]) 2 =
      some (.BadPowerValue (F64.val 1)) ∧
    PowerDistribution.validate (.SetMiner 1 (F64.val 1)) 2 = none := by
  refine ⟨?_, ?_, ?_⟩ <;> decide

end MiningSim
